import Mathlib

/-!
Shallow embedding of the circular buffer from
`src/3 - Assignment/240521 - Rust Basic + Roguelike Game, Week 4/circular-buffer/src/lib.rs`.

The Rust struct `CircularBuffer<T>` holds `buffer : Vec<Option<T>>` and two
indices `start_idx`, `end_idx`.  Operations that can panic in Rust (slot
indexing out of bounds, `Option::unwrap` on `None`) are embedded as functions
returning `Option`, where `none` models a panic.
-/

structure CircularBuffer (T : Type) where
  buffer : List (Option T)
  start_idx : Nat
  end_idx : Nat
deriving DecidableEq, Repr

inductive Error where
  | EmptyBuffer
  | FullBuffer
deriving DecidableEq, Repr

namespace CircularBuffer

variable {T : Type}

/-- Rust: `CircularBuffer::new(capacity)` builds `(0..capacity).map(|_| None).collect()`
with both indices 0. -/
def new (T : Type) (capacity : Nat) : CircularBuffer T :=
  { buffer := (List.range capacity).map (fun _ => none)
    start_idx := 0
    end_idx := 0 }

/-- Rust: `self.start_idx == self.end_idx && self.buffer[self.start_idx].is_none()`.
The `&&` short-circuits, so the (panicking) indexing only happens when the
indices are equal; `none` models the index-out-of-bounds panic. -/
def is_empty (b : CircularBuffer T) : Option Bool :=
  if b.start_idx = b.end_idx then
    match b.buffer[b.start_idx]? with
    | some slot => some slot.isNone
    | none => none
  else
    some false

/-- Rust: `self.start_idx == self.end_idx && self.buffer[self.start_idx].is_some()`. -/
def is_full (b : CircularBuffer T) : Option Bool :=
  if b.start_idx = b.end_idx then
    match b.buffer[b.start_idx]? with
    | some slot => some slot.isSome
    | none => none
  else
    some false

/-- Rust: `CircularBuffer::write`.  Returns the `Result<(), Error>` value and the
post-state; outer `none` models a panic (inside `is_full`, or on the
out-of-bounds store `self.buffer[self.end_idx] = ...`). -/
def write (b : CircularBuffer T) (element : T) :
    Option (Except Error Unit × CircularBuffer T) :=
  match is_full b with
  | none => none
  | some true => some (Except.error Error.FullBuffer, b)
  | some false =>
      let capacity := b.buffer.length
      if b.end_idx < capacity then
        some (Except.ok (),
          { b with buffer := b.buffer.set b.end_idx (some element)
                   end_idx := (b.end_idx + 1) % capacity })
      else
        none

/-- Rust: `CircularBuffer::read`.  `std::mem::replace` empties the slot at
`start_idx`, the index advances, and `value.unwrap()` panics (`none`) when the
slot held `None`. -/
def read (b : CircularBuffer T) :
    Option (Except Error T × CircularBuffer T) :=
  match is_empty b with
  | none => none
  | some true => some (Except.error Error.EmptyBuffer, b)
  | some false =>
      let capacity := b.buffer.length
      match b.buffer[b.start_idx]? with
      | none => none
      | some slot =>
          let b' : CircularBuffer T :=
            { b with buffer := b.buffer.set b.start_idx none
                     start_idx := (b.start_idx + 1) % capacity }
          match slot with
          | none => none
          | some value => some (Except.ok value, b')

/-- Rust: `CircularBuffer::clear` sets `self.buffer[idx] = None` for every
`idx in 0..self.buffer.len()`; the indices are not touched. -/
def clear (b : CircularBuffer T) : CircularBuffer T :=
  { b with buffer := b.buffer.map (fun _ => none) }

/-- Rust: `CircularBuffer::overwrite` stores at `end_idx` unconditionally,
advances `start_idx` when the two indices coincide, then advances `end_idx`;
`none` models the out-of-bounds store panic. -/
def overwrite (b : CircularBuffer T) (element : T) :
    Option (CircularBuffer T) :=
  let capacity := b.buffer.length
  if b.end_idx < capacity then
    some { buffer := b.buffer.set b.end_idx (some element)
           start_idx :=
             if b.start_idx = b.end_idx then (b.start_idx + 1) % capacity
             else b.start_idx
           end_idx := (b.end_idx + 1) % capacity }
  else
    none

/-- One operation of the public mutating API. -/
inductive Op (T : Type) where
  | write (x : T)
  | read
  | clear
  | overwrite (x : T)
deriving DecidableEq, Repr

/-- Run one operation, keeping only the post-state (`none` = panic). -/
def step (b : CircularBuffer T) : Op T → Option (CircularBuffer T)
  | Op.write x => (write b x).map Prod.snd
  | Op.read => (read b).map Prod.snd
  | Op.clear => some (clear b)
  | Op.overwrite x => overwrite b x

/-- Run a list of operations from a state. -/
def runOps (b : CircularBuffer T) : List (Op T) → Option (CircularBuffer T)
  | [] => some b
  | op :: ops =>
      match step b op with
      | none => none
      | some b' => runOps b' ops

/-- States reachable from `new c` by some sequence of API operations. -/
def Reachable (c : Nat) (b : CircularBuffer T) : Prop :=
  ∃ ops : List (Op T), runOps (new T c) ops = some b

/-- Is the operation a plain `write` or `read`? -/
def Op.isWR : Op T → Bool
  | Op.write _ => true
  | Op.read => true
  | Op.clear => false
  | Op.overwrite _ => false

/-- States reachable from `new c` using only `write` and `read`. -/
def ReachableWR (c : Nat) (b : CircularBuffer T) : Prop :=
  ∃ ops : List (Op T), ops.all Op.isWR = true ∧ runOps (new T c) ops = some b

/-- Number of occupied slots. -/
def occupiedCount (b : CircularBuffer T) : Nat :=
  b.buffer.countP Option.isSome

/-- Canonical well-formed buffer of capacity `c`: the oldest element sits at
slot `s` and the contents `xs` (oldest first) are laid out circularly from
there; every other slot is empty and `end_idx` points just past the run. -/
def mkState (c s : Nat) (xs : List T) : CircularBuffer T :=
  { buffer := (List.range c).map (fun i => xs[(i + c - s) % c]?)
    start_idx := s
    end_idx := (s + xs.length) % c }

/-- A state is canonical when it is `mkState c s xs` for some in-range start
and contents not exceeding the capacity. -/
def Canon (c : Nat) (b : CircularBuffer T) : Prop :=
  ∃ s xs, s < c ∧ List.length xs ≤ c ∧ b = mkState c s xs

/-- The spec's invariant, stated on the raw fields: the occupied slots form a
contiguous circular run of some length `k` starting at `start_idx` and ending
just before `end_idx`, and all other slots are empty. -/
def SpecInv (c : Nat) (b : CircularBuffer T) : Prop :=
  b.buffer.length = c ∧ b.start_idx < c ∧ b.end_idx < c ∧
  ∃ k, k ≤ c ∧ b.end_idx = (b.start_idx + k) % c ∧
    ∀ j, j < c →
      ((b.buffer.getD ((b.start_idx + j) % c) none).isSome = true ↔ j < k)

/-- Basic well-formedness: stored vector has length `c` and both indices are
in bounds. -/
def WF (c : Nat) (b : CircularBuffer T) : Prop :=
  b.buffer.length = c ∧ b.start_idx < c ∧ b.end_idx < c

/-- Perform a sequence of writes, requiring every single one to succeed. -/
def writeAll (b : CircularBuffer T) : List T → Option (CircularBuffer T)
  | [] => some b
  | x :: rest =>
      match write b x with
      | some (Except.ok _, b') => writeAll b' rest
      | _ => none

/-- Perform `n` reads, requiring every single one to succeed, collecting the
values in order. -/
def readAll (b : CircularBuffer T) : Nat → Option (List T × CircularBuffer T)
  | 0 => some ([], b)
  | n + 1 =>
      match read b with
      | some (Except.ok v, b') =>
          match readAll b' n with
          | some (vs, bf) => some (v :: vs, bf)
          | none => none
      | _ => none

theorem isSome_getElem?_iff (l : List T) (n : Nat) :
    (l[n]?).isSome = true ↔ n < l.length := by
  by_cases h : n < l.length
  · simp [List.getElem?_eq_getElem h, h]
  · rw [List.getElem?_eq_none (Nat.le_of_not_lt h)]
    simp
    omega

theorem wrap_off (c s i : Nat) (hs : s < c) (hi : i < c) :
    (i + c - s) % c = if s ≤ i then i - s else i + c - s := by
  split
  · have h1 : i + c - s = c + (i - s) := by omega
    rw [h1, Nat.add_mod_left]
    exact Nat.mod_eq_of_lt (by omega)
  · exact Nat.mod_eq_of_lt (by omega)

theorem wrap_add (c s j : Nat) (hs : s < c) (hj : j ≤ c) :
    (s + j) % c = if s + j < c then s + j else s + j - c := by
  split
  · exact Nat.mod_eq_of_lt (by assumption)
  · rw [Nat.mod_eq_sub_mod (by omega)]
    apply Nat.mod_eq_of_lt
    omega

/-- The offset of slot `i` from the start `s` is `k` exactly when `i` is the
`k`-th slot of the circular run starting at `s`. -/
theorem off_eq_iff (c s i k : Nat) (hs : s < c) (hi : i < c) (hk : k < c) :
    (i + c - s) % c = k ↔ i = (s + k) % c := by
  rw [wrap_off c s i hs hi, wrap_add c s k hs (Nat.le_of_lt hk)]
  split <;> split <;> omega

theorem mkState_length (c s : Nat) (xs : List T) :
    (mkState c s xs).buffer.length = c := by
  simp [mkState]

theorem mkState_getElem? (c s : Nat) (xs : List T) (i : Nat) (hi : i < c) :
    (mkState c s xs).buffer[i]? = some (xs[(i + c - s) % c]?) := by
  unfold mkState
  rw [List.getElem?_map, List.getElem?_range hi]
  rfl

theorem mkState_getElem?_ge (c s : Nat) (xs : List T) (i : Nat) (hi : c ≤ i) :
    (mkState c s xs).buffer[i]? = none := by
  apply List.getElem?_eq_none
  rw [mkState_length]
  exact hi

theorem mkState_slot_start (c s : Nat) (xs : List T) (hs : s < c) :
    (mkState c s xs).buffer[s]? = some (xs[0]?) := by
  rw [mkState_getElem? c s xs s hs]
  have h1 : s + c - s = c := by omega
  rw [h1, Nat.mod_self]

theorem mkState_start_eq_end_iff (c s : Nat) (xs : List T) (hs : s < c)
    (hlen : xs.length ≤ c) :
    ((mkState c s xs).start_idx = (mkState c s xs).end_idx) ↔
      (xs.length = 0 ∨ xs.length = c) := by
  show (s = (s + xs.length) % c) ↔ _
  rw [wrap_add c s xs.length hs hlen]
  split <;> omega

theorem is_empty_mkState (c s : Nat) (xs : List T) (hs : s < c)
    (hlen : xs.length ≤ c) :
    is_empty (mkState c s xs) = some xs.isEmpty := by
  unfold is_empty
  by_cases h : (mkState c s xs).start_idx = (mkState c s xs).end_idx
  · rw [if_pos h]
    show (match (mkState c s xs).buffer[s]? with
          | some slot => some slot.isNone
          | none => none) = some xs.isEmpty
    rw [mkState_slot_start c s xs hs]
    cases xs with
    | nil => rfl
    | cons y ys =>
        rw [List.getElem?_cons_zero]
        rfl
  · rw [if_neg h]
    rcases (not_iff_not.mpr (mkState_start_eq_end_iff c s xs hs hlen)).mp h
      with h2
    cases xs with
    | nil => exact absurd (Or.inl rfl) h2
    | cons y ys => rfl

theorem is_full_mkState (c s : Nat) (xs : List T) (hs : s < c)
    (hlen : xs.length ≤ c) :
    is_full (mkState c s xs) = some (decide (xs.length = c)) := by
  have hc : 0 < c := Nat.lt_of_le_of_lt (Nat.zero_le s) hs
  unfold is_full
  by_cases h : (mkState c s xs).start_idx = (mkState c s xs).end_idx
  · rw [if_pos h]
    show (match (mkState c s xs).buffer[s]? with
          | some slot => some slot.isSome
          | none => none) = _
    rw [mkState_slot_start c s xs hs]
    rcases (mkState_start_eq_end_iff c s xs hs hlen).mp h with h0 | hfull
    · have hxs : xs = [] := List.eq_nil_of_length_eq_zero h0
      subst hxs
      simp
      omega
    · cases xs with
      | nil => simp at hfull; omega
      | cons y ys =>
          rw [List.getElem?_cons_zero]
          simp [hfull]
  · rw [if_neg h]
    have h2 := (not_iff_not.mpr (mkState_start_eq_end_iff c s xs hs hlen)).mp h
    have : ¬ xs.length = c := fun hq => h2 (Or.inr hq)
    simp [this]

theorem mkState_end_lt (c s : Nat) (xs : List T) (hs : s < c) :
    (mkState c s xs).end_idx < c :=
  Nat.mod_lt _ (Nat.lt_of_le_of_lt (Nat.zero_le s) hs)

/-- Storing `x` at the slot just past the run extends the run by one. -/
theorem set_end_buffer (c s : Nat) (xs : List T) (x : T) (hs : s < c)
    (hlen : xs.length < c) :
    (mkState c s xs).buffer.set (mkState c s xs).end_idx (some x) =
      (mkState c s (xs ++ [x])).buffer := by
  have hc : 0 < c := Nat.lt_of_le_of_lt (Nat.zero_le s) hs
  have he : (s + xs.length) % c < c := Nat.mod_lt _ hc
  show (mkState c s xs).buffer.set ((s + xs.length) % c) (some x) = _
  apply List.ext_getElem?
  intro i
  by_cases hi : i < c
  · by_cases hie : i = (s + xs.length) % c
    · subst hie
      rw [List.getElem?_set_eq_of_lt (some x)
            (by rw [mkState_length]; exact he)]
      rw [mkState_getElem? c s (xs ++ [x]) _ he]
      have hoff : ((s + xs.length) % c + c - s) % c = xs.length :=
        (off_eq_iff c s _ xs.length hs he hlen).mpr rfl
      rw [hoff, List.getElem?_concat_length]
    · rw [List.getElem?_set_ne (fun hq => hie hq.symm)]
      rw [mkState_getElem? c s xs i hi, mkState_getElem? c s (xs ++ [x]) i hi]
      have hoff : (i + c - s) % c ≠ xs.length := fun hq =>
        hie ((off_eq_iff c s i xs.length hs hi hlen).mp hq)
      congr 1
      by_cases hj : (i + c - s) % c < xs.length
      · rw [List.getElem?_append_left hj]
      · rw [List.getElem?_eq_none (l := xs) (by omega),
            List.getElem?_eq_none (by simp; omega)]
  · rw [List.getElem?_eq_none (by rw [List.length_set, mkState_length]; omega),
        mkState_getElem?_ge c s (xs ++ [x]) i (by omega)]

/-- Advancing `end_idx` by one matches appending one element to the run. -/
theorem mkState_end_succ (c s : Nat) (xs : List T) (x : T) (_hs : s < c) :
    ((mkState c s xs).end_idx + 1) % (mkState c s xs).buffer.length =
      (mkState c s (xs ++ [x])).end_idx := by
  rw [mkState_length]
  show ((s + xs.length) % c + 1) % c = (s + (xs ++ [x]).length) % c
  rw [Nat.mod_add_mod]
  congr 1
  simp
  omega

theorem write_mkState_notfull (c s : Nat) (xs : List T) (x : T) (hs : s < c)
    (hlen : xs.length < c) :
    write (mkState c s xs) x = some (Except.ok (), mkState c s (xs ++ [x])) := by
  have hc : 0 < c := Nat.lt_of_le_of_lt (Nat.zero_le s) hs
  have hfull := is_full_mkState c s xs hs (Nat.le_of_lt hlen)
  rw [decide_eq_false (show ¬ xs.length = c by omega)] at hfull
  have hcond : (mkState c s xs).end_idx < (mkState c s xs).buffer.length := by
    rw [mkState_length]
    exact mkState_end_lt c s xs hs
  simp only [write, hfull]
  rw [if_pos hcond]
  rw [set_end_buffer c s xs x hs hlen, mkState_end_succ c s xs x hs]
  rfl

theorem write_mkState_full (c s : Nat) (xs : List T) (x : T) (hs : s < c)
    (hlen : xs.length = c) :
    write (mkState c s xs) x =
      some (Except.error Error.FullBuffer, mkState c s xs) := by
  have hfull := is_full_mkState c s xs hs (Nat.le_of_eq hlen)
  rw [decide_eq_true hlen] at hfull
  simp only [write, hfull]

theorem off_pred_start (c s : Nat) (hs : s < c) :
    (s + c - (s + 1) % c) % c = c - 1 := by
  have hc : 0 < c := Nat.lt_of_le_of_lt (Nat.zero_le s) hs
  have hs' : (s + 1) % c < c := Nat.mod_lt _ hc
  apply (off_eq_iff c ((s + 1) % c) s (c - 1) hs' hs (by omega)).mpr
  rw [Nat.mod_add_mod]
  rw [show s + 1 + (c - 1) = s + c from by omega]
  rw [Nat.add_mod_right]
  exact (Nat.mod_eq_of_lt hs).symm

theorem off_ne_zero (c s i : Nat) (hs : s < c) (hi : i < c) (hne : i ≠ s) :
    (i + c - s) % c ≠ 0 := by
  have hc : 0 < c := Nat.lt_of_le_of_lt (Nat.zero_le s) hs
  intro hq
  have h1 := (off_eq_iff c s i 0 hs hi hc).mp hq
  rw [Nat.add_zero, Nat.mod_eq_of_lt hs] at h1
  exact hne h1

/-- Moving the start one slot forward shifts every other slot's offset down by one. -/
theorem off_shift (c s i : Nat) (hs : s < c) (hi : i < c) (hne : i ≠ s) :
    (i + c - (s + 1) % c) % c = (i + c - s) % c - 1 := by
  have hc : 0 < c := Nat.lt_of_le_of_lt (Nat.zero_le s) hs
  have hs' : (s + 1) % c < c := Nat.mod_lt _ hc
  have hjlt : (i + c - s) % c < c := Nat.mod_lt _ hc
  have hj0 : (i + c - s) % c ≠ 0 := off_ne_zero c s i hs hi hne
  apply (off_eq_iff c ((s + 1) % c) i ((i + c - s) % c - 1) hs' hi (by omega)).mpr
  rw [Nat.mod_add_mod]
  rw [show s + 1 + ((i + c - s) % c - 1) = s + (i + c - s) % c from by omega]
  exact (off_eq_iff c s i ((i + c - s) % c) hs hi hjlt).mp rfl

theorem mkState_start_succ (c s : Nat) (xs : List T) :
    ((mkState c s xs).start_idx + 1) % (mkState c s xs).buffer.length =
      (s + 1) % c := by
  rw [mkState_length]
  rfl

/-- Emptying the start slot and advancing the start drops the oldest element. -/
theorem set_start_buffer (c s : Nat) (y : T) (ys : List T) (hs : s < c)
    (hlen : (y :: ys).length ≤ c) :
    (mkState c s (y :: ys)).buffer.set (mkState c s (y :: ys)).start_idx none =
      (mkState c ((s + 1) % c) ys).buffer := by
  have hc : 0 < c := Nat.lt_of_le_of_lt (Nat.zero_le s) hs
  have hys : ys.length ≤ c - 1 := by simp at hlen; omega
  show (mkState c s (y :: ys)).buffer.set s none = _
  apply List.ext_getElem?
  intro i
  by_cases hi : i < c
  · by_cases hie : i = s
    · subst hie
      rw [List.getElem?_set_eq_of_lt none (by rw [mkState_length]; exact hi)]
      rw [mkState_getElem? c ((i + 1) % c) ys i hi]
      rw [off_pred_start c i hi]
      rw [List.getElem?_eq_none (show ys.length ≤ c - 1 from hys)]
    · rw [List.getElem?_set_ne (fun hq => hie hq.symm)]
      rw [mkState_getElem? c s (y :: ys) i hi,
          mkState_getElem? c ((s + 1) % c) ys i hi]
      rw [off_shift c s i hs hi hie]
      conv_lhs =>
        rw [show (i + c - s) % c = ((i + c - s) % c - 1) + 1 from by
              have := off_ne_zero c s i hs hi hie
              omega]
      rw [List.getElem?_cons_succ]
  · rw [List.getElem?_eq_none (by rw [List.length_set, mkState_length]; omega),
        mkState_getElem?_ge c ((s + 1) % c) ys i (by omega)]

/-- Dropping the head keeps the same end slot. -/
theorem mkState_end_read (c s : Nat) (y : T) (ys : List T) :
    (mkState c s (y :: ys)).end_idx = (mkState c ((s + 1) % c) ys).end_idx := by
  show (s + (y :: ys).length) % c = ((s + 1) % c + ys.length) % c
  rw [Nat.mod_add_mod]
  congr 1
  simp
  omega

theorem mkState_slot_start_proj (c s : Nat) (xs : List T) (hs : s < c) :
    (mkState c s xs).buffer[(mkState c s xs).start_idx]? = some (xs[0]?) :=
  mkState_slot_start c s xs hs

theorem read_mkState_nil (c s : Nat) (hs : s < c) :
    read (mkState c s ([] : List T)) =
      some (Except.error Error.EmptyBuffer, mkState c s []) := by
  have hc : 0 < c := Nat.lt_of_le_of_lt (Nat.zero_le s) hs
  have hempty : is_empty (mkState c s ([] : List T)) = some true :=
    is_empty_mkState c s [] hs (by simp)
  simp only [read, hempty]

theorem read_mkState_cons (c s : Nat) (y : T) (ys : List T) (hs : s < c)
    (hlen : (y :: ys).length ≤ c) :
    read (mkState c s (y :: ys)) =
      some (Except.ok y, mkState c ((s + 1) % c) ys) := by
  have hempty : is_empty (mkState c s (y :: ys)) = some false :=
    is_empty_mkState c s (y :: ys) hs hlen
  simp only [read, hempty]
  rw [mkState_slot_start_proj c s (y :: ys) hs, List.getElem?_cons_zero]
  refine congrArg some (congrArg (Prod.mk (Except.ok y)) ?_)
  rw [set_start_buffer c s y ys hs hlen, mkState_start_succ c s (y :: ys),
      mkState_end_read c s y ys]
  rfl

theorem overwrite_mkState_mid (c s : Nat) (xs : List T) (x : T) (hs : s < c)
    (h0 : xs ≠ []) (hlen : xs.length < c) :
    overwrite (mkState c s xs) x = some (mkState c s (xs ++ [x])) := by
  have hc : 0 < c := Nat.lt_of_le_of_lt (Nat.zero_le s) hs
  have hcond : (mkState c s xs).end_idx < (mkState c s xs).buffer.length := by
    rw [mkState_length]
    exact mkState_end_lt c s xs hs
  have hne : ¬ ((mkState c s xs).start_idx = (mkState c s xs).end_idx) := by
    rw [mkState_start_eq_end_iff c s xs hs (Nat.le_of_lt hlen)]
    rintro (h1 | h1)
    · exact h0 (List.eq_nil_of_length_eq_zero h1)
    · omega
  simp only [overwrite]
  rw [if_pos hcond, if_neg hne]
  refine congrArg some ?_
  rw [set_end_buffer c s xs x hs hlen, mkState_end_succ c s xs x hs]
  rfl

/-- The end slot of a full run, seen from the advanced start, has offset `c - 1`. -/
theorem set_end_buffer_full (c s : Nat) (z : T) (zs : List T) (x : T)
    (hs : s < c) (hlen : (z :: zs).length = c) :
    (mkState c s (z :: zs)).buffer.set (mkState c s (z :: zs)).end_idx (some x) =
      (mkState c ((s + 1) % c) (zs ++ [x])).buffer := by
  have hc : 0 < c := Nat.lt_of_le_of_lt (Nat.zero_le s) hs
  have hzs : zs.length = c - 1 := by simp at hlen; omega
  have hend : (mkState c s (z :: zs)).end_idx = s := by
    show (s + (z :: zs).length) % c = s
    rw [hlen, Nat.add_mod_right]
    exact Nat.mod_eq_of_lt hs
  rw [hend]
  apply List.ext_getElem?
  intro i
  by_cases hi : i < c
  · by_cases hie : i = s
    · subst hie
      rw [List.getElem?_set_eq_of_lt (some x) (by rw [mkState_length]; exact hi)]
      rw [mkState_getElem? c ((i + 1) % c) (zs ++ [x]) i hi]
      rw [off_pred_start c i hi]
      rw [show c - 1 = zs.length from by omega]
      rw [List.getElem?_concat_length]
    · rw [List.getElem?_set_ne (fun hq => hie hq.symm)]
      rw [mkState_getElem? c s (z :: zs) i hi,
          mkState_getElem? c ((s + 1) % c) (zs ++ [x]) i hi]
      rw [off_shift c s i hs hi hie]
      conv_lhs =>
        rw [show (i + c - s) % c = ((i + c - s) % c - 1) + 1 from by
              have := off_ne_zero c s i hs hi hie
              omega]
      rw [List.getElem?_cons_succ]
      have hjlt : (i + c - s) % c < c := Nat.mod_lt _ hc
      rw [List.getElem?_append_left
            (show (i + c - s) % c - 1 < zs.length from by omega)]
  · rw [List.getElem?_eq_none (by rw [List.length_set, mkState_length]; omega),
        mkState_getElem?_ge c ((s + 1) % c) (zs ++ [x]) i (by omega)]

theorem overwrite_full_end (c s : Nat) (z : T) (zs : List T) (x : T)
    (_hs : s < c) (hlen : (z :: zs).length = c) :
    ((mkState c s (z :: zs)).end_idx + 1) % (mkState c s (z :: zs)).buffer.length =
      (mkState c ((s + 1) % c) (zs ++ [x])).end_idx := by
  rw [mkState_length]
  show ((s + (z :: zs).length) % c + 1) % c = ((s + 1) % c + (zs ++ [x]).length) % c
  rw [Nat.mod_add_mod, Nat.mod_add_mod]
  have h1 : (zs ++ [x]).length = (z :: zs).length := by simp
  rw [h1, hlen]
  congr 1
  omega

theorem overwrite_mkState_full (c s : Nat) (z : T) (zs : List T) (x : T)
    (hs : s < c) (hlen : (z :: zs).length = c) :
    overwrite (mkState c s (z :: zs)) x =
      some (mkState c ((s + 1) % c) (zs ++ [x])) := by
  have hc : 0 < c := Nat.lt_of_le_of_lt (Nat.zero_le s) hs
  have hcond : (mkState c s (z :: zs)).end_idx < (mkState c s (z :: zs)).buffer.length := by
    rw [mkState_length]
    exact mkState_end_lt c s (z :: zs) hs
  have heq : (mkState c s (z :: zs)).start_idx = (mkState c s (z :: zs)).end_idx :=
    (mkState_start_eq_end_iff c s (z :: zs) hs (Nat.le_of_eq hlen)).mpr (Or.inr hlen)
  simp only [overwrite]
  rw [if_pos hcond, if_pos heq]
  refine congrArg some ?_
  rw [set_end_buffer_full c s z zs x hs hlen, overwrite_full_end c s z zs x hs hlen,
      mkState_start_succ c s (z :: zs)]
  rfl

theorem new_eq_mkState (c : Nat) : new T c = mkState c 0 [] := by
  unfold new mkState
  congr 1

/-- Setting an empty slot to an element raises the occupied count by one. -/
theorem countP_set_some (l : List (Option T)) (e : Nat) (x : T)
    (hnone : l[e]? = some none) :
    (l.set e (some x)).countP Option.isSome = l.countP Option.isSome + 1 := by
  induction l generalizing e with
  | nil => simp at hnone
  | cons a l ih =>
      cases e with
      | zero =>
          rw [List.getElem?_cons_zero] at hnone
          have ha : a = none := by
            cases hnone
            rfl
          subst ha
          simp [List.countP_cons]
      | succ e =>
          rw [List.getElem?_cons_succ] at hnone
          show ((a :: l.set e (some x)).countP Option.isSome) = _
          rw [List.countP_cons, List.countP_cons, ih e hnone]
          omega

/-- The slot just past a non-full run is empty. -/
theorem mkState_end_slot_none (c s : Nat) (xs : List T) (hs : s < c)
    (hlen : xs.length < c) :
    (mkState c s xs).buffer[(mkState c s xs).end_idx]? = some none := by
  have hc : 0 < c := Nat.lt_of_le_of_lt (Nat.zero_le s) hs
  have he : (s + xs.length) % c < c := Nat.mod_lt _ hc
  show (mkState c s xs).buffer[(s + xs.length) % c]? = some none
  rw [mkState_getElem? c s xs _ he]
  have hoff : ((s + xs.length) % c + c - s) % c = xs.length :=
    (off_eq_iff c s _ xs.length hs he hlen).mpr rfl
  rw [hoff, List.getElem?_eq_none (Nat.le_refl xs.length)]

theorem occupiedCount_append_one (c s : Nat) (xs : List T) (x : T) (hs : s < c)
    (hlen : xs.length < c) :
    occupiedCount (mkState c s (xs ++ [x])) = occupiedCount (mkState c s xs) + 1 := by
  unfold occupiedCount
  rw [← set_end_buffer c s xs x hs hlen]
  exact countP_set_some _ _ x (mkState_end_slot_none c s xs hs hlen)

theorem canon_new (c : Nat) (hc : 1 ≤ c) : Canon c (new T c) :=
  ⟨0, [], hc, by simp, new_eq_mkState c⟩

theorem canon_step_wr (c : Nat) (b b' : CircularBuffer T) (op : Op T)
    (hcanon : Canon c b) (hop : op.isWR = true) (hstep : step b op = some b') :
    Canon c b' := by
  obtain ⟨s, xs, hs, hlen, rfl⟩ := hcanon
  have hc : 0 < c := Nat.lt_of_le_of_lt (Nat.zero_le s) hs
  cases op with
  | write x =>
      by_cases hfull : xs.length = c
      · simp only [step] at hstep
        rw [write_mkState_full c s xs x hs hfull] at hstep
        simp only [Option.map_some', Option.some.injEq] at hstep
        exact ⟨s, xs, hs, hlen, hstep.symm⟩
      · have hlt : xs.length < c := Nat.lt_of_le_of_ne hlen hfull
        simp only [step] at hstep
        rw [write_mkState_notfull c s xs x hs hlt] at hstep
        simp only [Option.map_some', Option.some.injEq] at hstep
        exact ⟨s, xs ++ [x], hs, by simp; omega, hstep.symm⟩
  | read =>
      cases xs with
      | nil =>
          simp only [step] at hstep
          rw [read_mkState_nil c s hs] at hstep
          simp only [Option.map_some', Option.some.injEq] at hstep
          exact ⟨s, [], hs, by simp, hstep.symm⟩
      | cons y ys =>
          simp only [step] at hstep
          rw [read_mkState_cons c s y ys hs hlen] at hstep
          simp only [Option.map_some', Option.some.injEq] at hstep
          refine ⟨(s + 1) % c, ys, Nat.mod_lt _ hc, ?_, hstep.symm⟩
          simp at hlen
          omega
  | clear => simp [Op.isWR] at hop
  | overwrite x => simp [Op.isWR] at hop

theorem canon_runOps_wr (c : Nat) (ops : List (Op T)) (b0 b : CircularBuffer T)
    (hall : ops.all Op.isWR = true) (hb0 : Canon c b0)
    (hrun : runOps b0 ops = some b) : Canon c b := by
  induction ops generalizing b0 with
  | nil =>
      simp only [runOps, Option.some.injEq] at hrun
      exact hrun ▸ hb0
  | cons op ops ih =>
      rw [List.all_cons, Bool.and_eq_true] at hall
      simp only [runOps] at hrun
      cases hstep : step b0 op with
      | none => rw [hstep] at hrun; exact absurd hrun (by simp)
      | some b1 =>
          rw [hstep] at hrun
          exact ih b1 hall.2 (canon_step_wr c b0 b1 op hb0 hall.1 hstep) hrun

theorem canon_of_reachableWR (c : Nat) (hc : 1 ≤ c) (b : CircularBuffer T)
    (hb : ReachableWR c b) : Canon c b := by
  obtain ⟨ops, hall, hrun⟩ := hb
  exact canon_runOps_wr c ops (new T c) b hall (canon_new c hc) hrun

theorem specInv_mkState (c s : Nat) (xs : List T) (hs : s < c)
    (hlen : xs.length ≤ c) : SpecInv c (mkState c s xs) := by
  have hc : 0 < c := Nat.lt_of_le_of_lt (Nat.zero_le s) hs
  refine ⟨mkState_length c s xs, hs, mkState_end_lt c s xs hs,
    xs.length, hlen, rfl, ?_⟩
  intro j hj
  have hidx : (s + j) % c < c := Nat.mod_lt _ hc
  show ((mkState c s xs).buffer.getD ((s + j) % c) none).isSome = true ↔ j < xs.length
  rw [List.getD_eq_getElem?_getD, mkState_getElem? c s xs ((s + j) % c) hidx]
  have hoff : ((s + j) % c + c - s) % c = j :=
    (off_eq_iff c s ((s + j) % c) j hs hidx hj).mpr rfl
  rw [hoff]
  exact isSome_getElem?_iff xs j

/-- Under the invariant, the code's emptiness test is equivalent to all slots
being empty. -/
theorem is_empty_iff_all_none (c s : Nat) (xs : List T) (hs : s < c)
    (hlen : xs.length ≤ c) :
    (is_empty (mkState c s xs) = some true ↔
      ∀ i, i < c → (mkState c s xs).buffer.getD i none = none) := by
  have hc : 0 < c := Nat.lt_of_le_of_lt (Nat.zero_le s) hs
  rw [is_empty_mkState c s xs hs hlen]
  constructor
  · intro hxs i hi
    have hnil : xs = [] := by
      cases xs with
      | nil => rfl
      | cons y ys => simp at hxs
    subst hnil
    rw [List.getD_eq_getElem?_getD, mkState_getElem? c s [] i hi]
    rfl
  · intro hall
    have := hall s hs
    rw [List.getD_eq_getElem?_getD, mkState_slot_start c s xs hs] at this
    cases xs with
    | nil => rfl
    | cons y ys =>
        rw [List.getElem?_cons_zero] at this
        simp at this

/-- Under the invariant, the code's fullness test is equivalent to all slots
being occupied. -/
theorem is_full_iff_all_some (c s : Nat) (xs : List T) (hs : s < c)
    (hlen : xs.length ≤ c) :
    (is_full (mkState c s xs) = some true ↔
      ∀ i, i < c → ((mkState c s xs).buffer.getD i none).isSome = true) := by
  have hc : 0 < c := Nat.lt_of_le_of_lt (Nat.zero_le s) hs
  rw [is_full_mkState c s xs hs hlen]
  constructor
  · intro hxs i hi
    have hfull : xs.length = c := by simpa using hxs
    rw [List.getD_eq_getElem?_getD, mkState_getElem? c s xs i hi]
    show (xs[(i + c - s) % c]?).isSome = true
    rw [isSome_getElem?_iff]
    rw [hfull]
    exact Nat.mod_lt _ hc
  · intro hall
    by_contra hne
    have hlt : xs.length < c := by
      simp at hne
      omega
    have := hall ((s + xs.length) % c) (Nat.mod_lt _ hc)
    rw [List.getD_eq_getElem?_getD,
        show (mkState c s xs).buffer[(s + xs.length) % c]? = some none from
          mkState_end_slot_none c s xs hs hlt] at this
    simp at this

theorem wf_new (c : Nat) (hc : 1 ≤ c) : WF c (new T c) := by
  refine ⟨?_, hc, hc⟩
  simp [new]

theorem wf_slot (c : Nat) (b : CircularBuffer T) (hwf : WF c b) :
    ∃ v, b.buffer[b.start_idx]? = some v := by
  obtain ⟨hlen, hstart, _⟩ := hwf
  exact ⟨_, List.getElem?_eq_getElem (by omega)⟩

theorem is_empty_some_of_wf (c : Nat) (b : CircularBuffer T) (hwf : WF c b) :
    ∃ t, is_empty b = some t := by
  obtain ⟨v, hv⟩ := wf_slot c b hwf
  unfold is_empty
  split
  · rw [hv]
    exact ⟨v.isNone, rfl⟩
  · exact ⟨false, rfl⟩

theorem is_full_some_of_wf (c : Nat) (b : CircularBuffer T) (hwf : WF c b) :
    ∃ t, is_full b = some t := by
  obtain ⟨v, hv⟩ := wf_slot c b hwf
  unfold is_full
  split
  · rw [hv]
    exact ⟨v.isSome, rfl⟩
  · exact ⟨false, rfl⟩

theorem write_ne_none_of_wf (c : Nat) (b : CircularBuffer T) (hwf : WF c b)
    (x : T) : write b x ≠ none := by
  obtain ⟨t, ht⟩ := is_full_some_of_wf c b hwf
  obtain ⟨hlen, hstart, hend⟩ := hwf
  unfold write
  rw [ht]
  cases t
  · rw [if_pos (by omega)]
    simp
  · simp

theorem overwrite_ne_none_of_wf (c : Nat) (b : CircularBuffer T) (hwf : WF c b)
    (x : T) : overwrite b x ≠ none := by
  obtain ⟨hlen, hstart, hend⟩ := hwf
  unfold overwrite
  rw [if_pos (by omega)]
  simp

theorem wf_step (c : Nat) (b b' : CircularBuffer T) (op : Op T) (hc : 1 ≤ c)
    (hwf : WF c b) (hstep : step b op = some b') : WF c b' := by
  obtain ⟨hlen, hstart, hend⟩ := hwf
  cases op with
  | write x =>
      simp only [step] at hstep
      unfold write at hstep
      cases hfull : is_full b with
      | none => rw [hfull] at hstep; simp at hstep
      | some t =>
          rw [hfull] at hstep
          cases t with
          | true =>
              simp only [Option.map_some', Option.some.injEq] at hstep
              exact hstep ▸ ⟨hlen, hstart, hend⟩
          | false =>
              by_cases hcond : b.end_idx < b.buffer.length
              · rw [if_pos hcond] at hstep
                simp only [Option.map_some', Option.some.injEq] at hstep
                subst hstep
                refine ⟨?_, hstart, ?_⟩
                · show (b.buffer.set b.end_idx (some x)).length = c
                  rw [List.length_set]
                  exact hlen
                · show (b.end_idx + 1) % b.buffer.length < c
                  rw [hlen]
                  exact Nat.mod_lt _ (by omega)
              · rw [if_neg hcond] at hstep
                simp at hstep
  | read =>
      simp only [step] at hstep
      unfold read at hstep
      cases hemp : is_empty b with
      | none => rw [hemp] at hstep; simp at hstep
      | some t =>
          rw [hemp] at hstep
          cases t with
          | true =>
              simp only [Option.map_some', Option.some.injEq] at hstep
              exact hstep ▸ ⟨hlen, hstart, hend⟩
          | false =>
              cases hslot : b.buffer[b.start_idx]? with
              | none => rw [hslot] at hstep; simp at hstep
              | some slot =>
                  rw [hslot] at hstep
                  cases slot with
                  | none => simp at hstep
                  | some v =>
                      simp only [Option.map_some', Option.some.injEq] at hstep
                      subst hstep
                      refine ⟨?_, ?_, hend⟩
                      · show (b.buffer.set b.start_idx none).length = c
                        rw [List.length_set]
                        exact hlen
                      · show (b.start_idx + 1) % b.buffer.length < c
                        rw [hlen]
                        exact Nat.mod_lt _ (by omega)
  | clear =>
      simp only [step, Option.some.injEq] at hstep
      subst hstep
      refine ⟨?_, hstart, hend⟩
      show (b.buffer.map _).length = c
      rw [List.length_map]
      exact hlen
  | overwrite x =>
      simp only [step] at hstep
      unfold overwrite at hstep
      by_cases hcond : b.end_idx < b.buffer.length
      · rw [if_pos hcond] at hstep
        simp only [Option.some.injEq] at hstep
        subst hstep
        refine ⟨?_, ?_, ?_⟩
        · show (b.buffer.set b.end_idx (some x)).length = c
          rw [List.length_set]
          exact hlen
        · show (if b.start_idx = b.end_idx then
              (b.start_idx + 1) % b.buffer.length else b.start_idx) < c
          split
          · rw [hlen]
            exact Nat.mod_lt _ (by omega)
          · exact hstart
        · show (b.end_idx + 1) % b.buffer.length < c
          rw [hlen]
          exact Nat.mod_lt _ (by omega)
      · rw [if_neg hcond] at hstep
        simp at hstep

theorem wf_runOps (c : Nat) (hc : 1 ≤ c) (ops : List (Op T))
    (b0 b : CircularBuffer T) (hb0 : WF c b0) (hrun : runOps b0 ops = some b) :
    WF c b := by
  induction ops generalizing b0 with
  | nil =>
      simp only [runOps, Option.some.injEq] at hrun
      exact hrun ▸ hb0
  | cons op ops ih =>
      simp only [runOps] at hrun
      cases hstep : step b0 op with
      | none => rw [hstep] at hrun; exact absurd hrun (by simp)
      | some b1 =>
          rw [hstep] at hrun
          exact ih b1 (wf_step c b0 b1 op hc hb0 hstep) hrun

theorem wf_reachable (c : Nat) (hc : 1 ≤ c) (b : CircularBuffer T)
    (hb : Reachable c b) : WF c b := by
  obtain ⟨ops, hrun⟩ := hb
  exact wf_runOps c hc ops (new T c) b (wf_new c hc) hrun

theorem writeAll_mkState (c s : Nat) (ys xs : List T) (hs : s < c)
    (hlen : ys.length + xs.length ≤ c) :
    writeAll (mkState c s ys) xs = some (mkState c s (ys ++ xs)) := by
  induction xs generalizing ys with
  | nil => simp [writeAll]
  | cons x rest ih =>
      have hlt : ys.length < c := by
        simp at hlen
        omega
      simp only [writeAll, write_mkState_notfull c s ys x hs hlt,
        ih (ys ++ [x]) (by simp at hlen ⊢; omega)]
      simp

theorem readAll_mkState (c : Nat) (xs : List T) : ∀ s : Nat, s < c →
    xs.length ≤ c →
    readAll (mkState c s xs) xs.length =
      some (xs, mkState c ((s + xs.length) % c) []) := by
  induction xs with
  | nil =>
      intro s hs _
      simp only [readAll, List.length_nil]
      rw [Nat.add_zero, Nat.mod_eq_of_lt hs]
  | cons y ys ih =>
      intro s hs hlen
      have hc : 0 < c := Nat.lt_of_le_of_lt (Nat.zero_le s) hs
      simp only [List.length_cons, readAll,
        read_mkState_cons c s y ys hs hlen,
        ih ((s + 1) % c) (Nat.mod_lt _ hc) (by simp at hlen; omega)]
      have harith : ((s + 1) % c + ys.length) % c = (s + (ys.length + 1)) % c := by
        rw [Nat.mod_add_mod]
        congr 1
        omega
      rw [harith]

theorem read_new (c : Nat) (hc : 1 ≤ c) :
    read (new T c) = some (Except.error Error.EmptyBuffer, new T c) := by
  rw [new_eq_mkState c]
  exact read_mkState_nil c 0 hc

/-- Claim C1: the claim says `clear` on a non-empty reachable buffer makes it
empty and a subsequent `read` returns `EmptyBuffer`.  The code contradicts
this: on `new(2)` after one successful `write`, `clear` empties the slots but
leaves `start_idx = 0 ≠ 1 = end_idx`, so the next `read` takes the non-empty
branch and panics on `unwrap` of `None` (embedded as `none`) instead of
returning `EmptyBuffer`. -/
theorem clear_then_read_panics :
    write (new Nat 2) 1 =
      some (Except.ok (), { buffer := [some 1, none], start_idx := 0, end_idx := 1 }) ∧
    is_empty ({ buffer := [some 1, none], start_idx := 0, end_idx := 1 } :
      CircularBuffer Nat) = some false ∧
    clear ({ buffer := [some 1, none], start_idx := 0, end_idx := 1 } :
      CircularBuffer Nat) = { buffer := [none, none], start_idx := 0, end_idx := 1 } ∧
    read ({ buffer := [none, none], start_idx := 0, end_idx := 1 } :
      CircularBuffer Nat) = none :=
  ⟨rfl, rfl, rfl, rfl⟩

/-- Claim C2: the claim says `overwrite` on any reachable non-full buffer
(including the empty one) produces exactly the same state as `write`.  The
code contradicts this on the empty buffer of capacity 2: `overwrite` also
advances `start_idx` (because `start_idx == end_idx` when empty), so the
element is stored but unreadable — the resulting state differs from `write`'s
and a subsequent `read` returns `EmptyBuffer`. -/
theorem overwrite_on_empty_differs_from_write :
    is_full (new Nat 2) = some false ∧
    write (new Nat 2) 5 =
      some (Except.ok (), { buffer := [some 5, none], start_idx := 0, end_idx := 1 }) ∧
    overwrite (new Nat 2) 5 =
      some { buffer := [some 5, none], start_idx := 1, end_idx := 1 } ∧
    ({ buffer := [some 5, none], start_idx := 1, end_idx := 1 } :
      CircularBuffer Nat) ≠ { buffer := [some 5, none], start_idx := 0, end_idx := 1 } ∧
    read ({ buffer := [some 5, none], start_idx := 1, end_idx := 1 } :
      CircularBuffer Nat) =
      some (Except.error Error.EmptyBuffer,
        { buffer := [some 5, none], start_idx := 1, end_idx := 1 }) :=
  ⟨rfl, rfl, rfl, by decide, rfl⟩

/-- Claim C3, counterexample: the contiguous-run invariant does not hold for
every reachable state once `clear` is allowed — after `new(2); write 1; clear`
the state has `start_idx = 0`, `end_idx = 1` but the slot at `start_idx` is
empty, so no run length `k` fits. -/
theorem clear_breaks_spec_invariant :
    Reachable 2 ({ buffer := [none, none], start_idx := 0, end_idx := 1 } :
      CircularBuffer Nat) ∧
    ¬ SpecInv 2 ({ buffer := [none, none], start_idx := 0, end_idx := 1 } :
      CircularBuffer Nat) := by
  constructor
  · exact ⟨[Op.write 1, Op.clear], rfl⟩
  · rintro ⟨-, -, -, k, hk, he, hall⟩
    have he2 : 1 = (0 + k) % 2 := he
    have hk1 : k = 1 := by omega
    have h0 : ((([none, none] : List (Option Nat)).getD ((0 + 0) % 2) none).isSome
        = true ↔ 0 < k) := hall 0 (by omega)
    rw [hk1] at h0
    exact absurd (h0.mpr (by omega)) (by decide)

/-- Claim C3 (amended): in every buffer state reachable from `new c`, `c ≥ 1`,
by `write` and `read` operations alone, the occupied slots form a contiguous
circular run starting at `start_idx` and ending just before `end_idx`
(wrapping modulo capacity) with all other slots empty; moreover the code's
emptiness test holds iff no slot is occupied and its fullness test holds iff
every slot is occupied.  (The original claim, over sequences that may also use
`clear`/`overwrite`, is refuted by `clear_breaks_spec_invariant`.) -/
theorem spec_invariant_reachableWR (c : Nat) (hc : 1 ≤ c)
    (b : CircularBuffer T) (hb : ReachableWR c b) :
    SpecInv c b ∧
    (is_empty b = some true ↔ ∀ i, i < c → b.buffer.getD i none = none) ∧
    (is_full b = some true ↔ ∀ i, i < c → (b.buffer.getD i none).isSome = true) := by
  obtain ⟨s, xs, hs, hlen, rfl⟩ := canon_of_reachableWR c hc b hb
  exact ⟨specInv_mkState c s xs hs hlen,
    is_empty_iff_all_none c s xs hs hlen,
    is_full_iff_all_some c s xs hs hlen⟩

theorem spec_invariant_reachableWR_witness :
    SpecInv 2 ({ buffer := [some 5, none], start_idx := 0, end_idx := 1 } :
      CircularBuffer Nat) ∧
    (is_empty ({ buffer := [some 5, none], start_idx := 0, end_idx := 1 } :
        CircularBuffer Nat) = some true ↔
      ∀ i, i < 2 →
        (([some 5, none] : List (Option Nat)).getD i none) = none) ∧
    (is_full ({ buffer := [some 5, none], start_idx := 0, end_idx := 1 } :
        CircularBuffer Nat) = some true ↔
      ∀ i, i < 2 →
        ((([some 5, none] : List (Option Nat)).getD i none).isSome = true)) :=
  spec_invariant_reachableWR 2 (by omega)
    { buffer := [some 5, none], start_idx := 0, end_idx := 1 }
    ⟨[Op.write 5], rfl, rfl⟩

/-- Claim C4, counterexample: the claim quantifies over every reachable full
buffer, but on the reachable corrupted state `{[none, some 2], 1, 1}` (full
according to the code's own test) `overwrite` leaves a buffer that is no
longer full — in fact it tests empty, losing the stored element. -/
theorem overwrite_full_reachable_leaves_not_full :
    Reachable 2 ({ buffer := [none, some 2], start_idx := 1, end_idx := 1 } :
      CircularBuffer Nat) ∧
    is_full ({ buffer := [none, some 2], start_idx := 1, end_idx := 1 } :
      CircularBuffer Nat) = some true ∧
    overwrite ({ buffer := [none, some 2], start_idx := 1, end_idx := 1 } :
      CircularBuffer Nat) 9 =
      some { buffer := [none, some 9], start_idx := 0, end_idx := 0 } ∧
    is_full ({ buffer := [none, some 9], start_idx := 0, end_idx := 0 } :
      CircularBuffer Nat) = some false ∧
    is_empty ({ buffer := [none, some 9], start_idx := 0, end_idx := 0 } :
      CircularBuffer Nat) = some true :=
  ⟨⟨[Op.write 1, Op.clear, Op.write 2, Op.write 3, Op.read], rfl⟩,
    rfl, rfl, rfl, rfl⟩

/-- Claim C4 (amended): for every full buffer satisfying the contiguous-run
invariant (canonical state with contents `z :: zs` of length exactly the
capacity), `overwrite x` stores `x` in the slot of the oldest element
(`write_index = read_index`), advances both indices by one modulo capacity,
evicts exactly the oldest element `z`, keeps the remaining elements in FIFO
order followed by `x`, leaves the buffer full, and never returns an error.
(The original claim, over every reachable full state, is refuted by
`overwrite_full_reachable_leaves_not_full`.) -/
theorem overwrite_on_full_canonical (c s : Nat) (z : T) (zs : List T) (x : T)
    (hs : s < c) (hlen : (z :: zs).length = c) :
    is_full (mkState c s (z :: zs)) = some true ∧
    overwrite (mkState c s (z :: zs)) x =
      some (mkState c ((s + 1) % c) (zs ++ [x])) ∧
    is_full (mkState c ((s + 1) % c) (zs ++ [x])) = some true ∧
    (mkState c ((s + 1) % c) (zs ++ [x])).buffer[s]? = some (some x) := by
  have hc : 0 < c := Nat.lt_of_le_of_lt (Nat.zero_le s) hs
  have hs2 : (s + 1) % c < c := Nat.mod_lt _ hc
  have hzs : zs.length = c - 1 := by simp at hlen; omega
  have hlen2 : (zs ++ [x]).length = c := by simp; omega
  refine ⟨?_, overwrite_mkState_full c s z zs x hs hlen, ?_, ?_⟩
  · rw [is_full_mkState c s (z :: zs) hs (Nat.le_of_eq hlen),
      decide_eq_true hlen]
  · rw [is_full_mkState c ((s + 1) % c) (zs ++ [x]) hs2 (Nat.le_of_eq hlen2),
      decide_eq_true hlen2]
  · rw [mkState_getElem? c ((s + 1) % c) (zs ++ [x]) s hs, off_pred_start c s hs]
    rw [show c - 1 = zs.length from by omega, List.getElem?_concat_length]

theorem overwrite_on_full_canonical_witness :
    is_full (mkState 2 0 [1, 2]) = some true ∧
    overwrite (mkState 2 0 [1, 2]) 10 =
      some (mkState 2 ((0 + 1) % 2) ([2] ++ [10])) ∧
    is_full (mkState 2 ((0 + 1) % 2) ([2] ++ [10])) = some true ∧
    (mkState 2 ((0 + 1) % 2) ([2] ++ [10])).buffer[0]? = some (some 10) :=
  overwrite_on_full_canonical 2 0 1 [2] 10 (by omega) rfl

/-- Claim C5, counterexample: the claim quantifies over every buffer state,
but on the reachable state `{[some 3, some 2], 0, 1}` (not full according to
the code's test) a successful `write` overwrites an already-occupied slot, so
the occupied-slot count stays 2 instead of increasing by one. -/
theorem write_nonfull_count_not_increased :
    Reachable 2 ({ buffer := [some 3, some 2], start_idx := 0, end_idx := 1 } :
      CircularBuffer Nat) ∧
    is_full ({ buffer := [some 3, some 2], start_idx := 0, end_idx := 1 } :
      CircularBuffer Nat) = some false ∧
    write ({ buffer := [some 3, some 2], start_idx := 0, end_idx := 1 } :
      CircularBuffer Nat) 4 =
      some (Except.ok (), { buffer := [some 3, some 4], start_idx := 0, end_idx := 0 }) ∧
    occupiedCount ({ buffer := [some 3, some 4], start_idx := 0, end_idx := 0 } :
      CircularBuffer Nat) = 2 ∧
    occupiedCount ({ buffer := [some 3, some 2], start_idx := 0, end_idx := 1 } :
      CircularBuffer Nat) = 2 :=
  ⟨⟨[Op.write 1, Op.clear, Op.write 2, Op.write 3], rfl⟩, rfl, rfl, rfl, rfl⟩

/-- Claim C5 (amended): for every buffer state satisfying the contiguous-run
invariant (canonical state `mkState c s xs`), `write x` returns the
`FullBuffer` error iff the buffer is full, and on that error the entire state
is unchanged; otherwise it stores `x` at `write_index`, advances `write_index`
by one modulo capacity, returns success, and increases the occupied-slot count
by one.  (The original claim, over every buffer state, is refuted by
`write_nonfull_count_not_increased`.) -/
theorem write_spec_canonical (c s : Nat) (xs : List T) (x : T) (hs : s < c)
    (hlen : xs.length ≤ c) :
    (is_full (mkState c s xs) = some true ↔ xs.length = c) ∧
    (xs.length = c →
      write (mkState c s xs) x =
        some (Except.error Error.FullBuffer, mkState c s xs)) ∧
    (xs.length < c →
      write (mkState c s xs) x = some (Except.ok (), mkState c s (xs ++ [x])) ∧
      (mkState c s (xs ++ [x])).buffer[(mkState c s xs).end_idx]? = some (some x) ∧
      (mkState c s (xs ++ [x])).end_idx = ((mkState c s xs).end_idx + 1) % c ∧
      occupiedCount (mkState c s (xs ++ [x])) = occupiedCount (mkState c s xs) + 1) := by
  have hc : 0 < c := Nat.lt_of_le_of_lt (Nat.zero_le s) hs
  refine ⟨?_, ?_, ?_⟩
  · rw [is_full_mkState c s xs hs hlen]
    simp
  · intro hfull
    exact write_mkState_full c s xs x hs hfull
  · intro hlt
    refine ⟨write_mkState_notfull c s xs x hs hlt, ?_, ?_, ?_⟩
    · rw [← set_end_buffer c s xs x hs hlt,
        List.getElem?_set_eq_of_lt (some x)
          (by rw [mkState_length]; exact mkState_end_lt c s xs hs)]
    · have h1 := mkState_end_succ c s xs x hs
      rw [mkState_length] at h1
      exact h1.symm
    · exact occupiedCount_append_one c s xs x hs hlt

theorem write_spec_canonical_witness :
    (is_full (mkState 2 0 [7]) = some true ↔ List.length [7] = 2) ∧
    (List.length [7] = 2 →
      write (mkState 2 0 [7]) 9 =
        some (Except.error Error.FullBuffer, mkState 2 0 [7])) ∧
    (List.length [7] < 2 →
      write (mkState 2 0 [7]) 9 = some (Except.ok (), mkState 2 0 ([7] ++ [9])) ∧
      (mkState 2 0 ([7] ++ [9])).buffer[(mkState 2 0 [7]).end_idx]? = some (some 9) ∧
      (mkState 2 0 ([7] ++ [9])).end_idx = ((mkState 2 0 [7]).end_idx + 1) % 2 ∧
      occupiedCount (mkState 2 0 ([7] ++ [9])) = occupiedCount (mkState 2 0 [7]) + 1) :=
  write_spec_canonical 2 0 [7] 9 (by omega) (by simp)

/-- Claim C6, counterexample: the claim quantifies over every buffer state,
but on the reachable state `{[none, none], 0, 1}` the emptiness test is
`false`, yet `read` neither returns the element at `read_index` (there is
none) nor the `EmptyBuffer` error — it panics (`none`). -/
theorem read_on_cleared_nonempty_panics :
    Reachable 2 ({ buffer := [none, none], start_idx := 0, end_idx := 1 } :
      CircularBuffer Nat) ∧
    is_empty ({ buffer := [none, none], start_idx := 0, end_idx := 1 } :
      CircularBuffer Nat) = some false ∧
    read ({ buffer := [none, none], start_idx := 0, end_idx := 1 } :
      CircularBuffer Nat) = none :=
  ⟨⟨[Op.write 1, Op.clear], rfl⟩, rfl, rfl⟩

/-- Claim C6 (amended): for every buffer state satisfying the contiguous-run
invariant (canonical state `mkState c s xs`), `read` returns the `EmptyBuffer`
error iff the buffer is empty, with the state unchanged on that error;
otherwise it removes and returns the element at `read_index`, marks that slot
empty, and advances `read_index` by one modulo capacity.  For every `c ≥ 1`,
`read` on a freshly constructed buffer yields `EmptyBuffer`.  (The original
claim, over every buffer state, is refuted by
`read_on_cleared_nonempty_panics`.) -/
theorem read_spec_canonical (c s : Nat) (xs : List T) (hs : s < c)
    (hlen : xs.length ≤ c) :
    (is_empty (mkState c s xs) = some true ↔ xs = []) ∧
    (xs = [] →
      read (mkState c s xs) =
        some (Except.error Error.EmptyBuffer, mkState c s xs)) ∧
    (∀ y ys, xs = y :: ys →
      (mkState c s xs).buffer[s]? = some (some y) ∧
      read (mkState c s xs) = some (Except.ok y, mkState c ((s + 1) % c) ys) ∧
      (mkState c ((s + 1) % c) ys).buffer[s]? = some none) ∧
    (∀ c2, 1 ≤ c2 → read (new T c2) =
      some (Except.error Error.EmptyBuffer, new T c2)) := by
  have hc : 0 < c := Nat.lt_of_le_of_lt (Nat.zero_le s) hs
  refine ⟨?_, ?_, ?_, read_new⟩
  · rw [is_empty_mkState c s xs hs hlen]
    cases xs with
    | nil => simp
    | cons y ys => simp
  · rintro rfl
    exact read_mkState_nil c s hs
  · rintro y ys rfl
    refine ⟨?_, read_mkState_cons c s y ys hs hlen, ?_⟩
    · rw [mkState_slot_start c s (y :: ys) hs, List.getElem?_cons_zero]
    · rw [mkState_getElem? c ((s + 1) % c) ys s hs, off_pred_start c s hs]
      rw [List.getElem?_eq_none (show ys.length ≤ c - 1 from by
        simp at hlen
        omega)]

theorem read_spec_canonical_witness :
    (is_empty (mkState 2 0 [4]) = some true ↔ [4] = ([] : List Nat)) ∧
    ([4] = ([] : List Nat) →
      read (mkState 2 0 [4]) =
        some (Except.error Error.EmptyBuffer, mkState 2 0 [4])) ∧
    (∀ y ys, [4] = y :: ys →
      (mkState 2 0 [4]).buffer[0]? = some (some y) ∧
      read (mkState 2 0 [4]) = some (Except.ok y, mkState 2 ((0 + 1) % 2) ys) ∧
      (mkState 2 ((0 + 1) % 2) ys).buffer[0]? = some none) ∧
    (∀ c2, 1 ≤ c2 → read (new Nat c2) =
      some (Except.error Error.EmptyBuffer, new Nat c2)) :=
  read_spec_canonical 2 0 [4] (by omega) (by simp)

/-- Claim C7: FIFO order — for every capacity `c ≥ 1` and every sequence `xs`
of at most `c` elements written into a fresh buffer, all writes succeed, the
following `xs.length` reads all succeed and return exactly `xs` in order, and
the next read returns `EmptyBuffer` leaving the state unchanged. -/
theorem fifo_order (c : Nat) (xs : List T) (hc : 1 ≤ c)
    (hlen : xs.length ≤ c) :
    ∃ b1 b2 : CircularBuffer T,
      writeAll (new T c) xs = some b1 ∧
      readAll b1 xs.length = some (xs, b2) ∧
      read b2 = some (Except.error Error.EmptyBuffer, b2) := by
  refine ⟨mkState c 0 xs, mkState c ((0 + xs.length) % c) [], ?_, ?_, ?_⟩
  · rw [new_eq_mkState c]
    have h1 := writeAll_mkState c 0 [] xs hc (by simp; omega)
    simpa using h1
  · exact readAll_mkState c xs 0 hc hlen
  · exact read_mkState_nil c ((0 + xs.length) % c) (Nat.mod_lt _ (by omega))

theorem fifo_order_witness :
    ∃ b1 b2 : CircularBuffer Nat,
      writeAll (new Nat 2) [4, 5] = some b1 ∧
      readAll b1 (List.length [4, 5]) = some ([4, 5], b2) ∧
      read b2 = some (Except.error Error.EmptyBuffer, b2) :=
  fifo_order 2 [4, 5] (by omega) (by simp)

/-- Claim C8: for every capacity `c ≥ 1`, writing exactly `c` elements into a
fresh buffer succeeds (every write returns `Ok`), and one further `write`
returns the `FullBuffer` error leaving the buffer state unchanged. -/
theorem writes_fill_then_full (c : Nat) (xs : List T) (y : T) (hc : 1 ≤ c)
    (hlen : xs.length = c) :
    writeAll (new T c) xs = some (mkState c 0 xs) ∧
    write (mkState c 0 xs) y =
      some (Except.error Error.FullBuffer, mkState c 0 xs) := by
  constructor
  · rw [new_eq_mkState c]
    have h1 := writeAll_mkState c 0 [] xs hc (by simp; omega)
    simpa using h1
  · exact write_mkState_full c 0 xs y hc hlen

theorem writes_fill_then_full_witness :
    writeAll (new Nat 1) [7] = some (mkState 1 0 [7]) ∧
    write (mkState 1 0 [7]) 8 =
      some (Except.error Error.FullBuffer, mkState 1 0 [7]) :=
  writes_fill_then_full 1 [7] 8 (by omega) rfl

/-- Claim C9: `clear` empties every one of the capacity slots and modifies
nothing else — `start_idx`, `end_idx` and the storage length are unchanged. -/
theorem clear_frame (b : CircularBuffer T) :
    (clear b).buffer = List.replicate b.buffer.length none ∧
    (clear b).start_idx = b.start_idx ∧
    (clear b).end_idx = b.end_idx ∧
    (clear b).buffer.length = b.buffer.length := by
  refine ⟨?_, rfl, rfl, by simp [clear]⟩
  show b.buffer.map (fun _ => none) = _
  exact List.map_const' b.buffer none

/-- Claim C10: `new(0)` is constructed successfully (empty storage), and then
`write`/`read` panic inside `is_full`/`is_empty` (indexing slot 0 of an empty
vector) while `overwrite` panics on the out-of-bounds store — all embedded as
`none`; whereas from `new c` with `c ≥ 1` every reachable state keeps the
storage length `c` and both indices in bounds, so the out-of-bounds panic
branches are unreachable: the predicates, `write` and `overwrite` never
return `none`, and the slot indexed by `read` always exists. -/
theorem capacity_zero_panics_capacity_pos_safe (c : Nat) (hc : 1 ≤ c)
    (b : CircularBuffer T) (hb : Reachable c b) (x : T) :
    ((new T 0).buffer = [] ∧
     is_empty (new T 0) = none ∧
     is_full (new T 0) = none ∧
     write (new T 0) x = none ∧
     read (new T 0) = none ∧
     overwrite (new T 0) x = none) ∧
    (b.buffer.length = c ∧ b.start_idx < c ∧ b.end_idx < c ∧
     is_empty b ≠ none ∧ is_full b ≠ none ∧
     write b x ≠ none ∧ overwrite b x ≠ none ∧
     b.buffer[b.start_idx]? ≠ none) := by
  have hwf := wf_reachable c hc b hb
  obtain ⟨t1, ht1⟩ := is_empty_some_of_wf c b hwf
  obtain ⟨t2, ht2⟩ := is_full_some_of_wf c b hwf
  obtain ⟨v, hv⟩ := wf_slot c b hwf
  obtain ⟨hlen, hstart, hend⟩ := hwf
  exact ⟨⟨rfl, rfl, rfl, rfl, rfl, rfl⟩,
    hlen, hstart, hend, by rw [ht1]; simp, by rw [ht2]; simp,
    write_ne_none_of_wf c b ⟨hlen, hstart, hend⟩ x,
    overwrite_ne_none_of_wf c b ⟨hlen, hstart, hend⟩ x,
    by rw [hv]; simp⟩

theorem capacity_zero_panics_capacity_pos_safe_witness :
    ((new Nat 0).buffer = [] ∧
     is_empty (new Nat 0) = none ∧
     is_full (new Nat 0) = none ∧
     write (new Nat 0) 3 = none ∧
     read (new Nat 0) = none ∧
     overwrite (new Nat 0) 3 = none) ∧
    ((new Nat 1).buffer.length = 1 ∧
     (new Nat 1).start_idx < 1 ∧ (new Nat 1).end_idx < 1 ∧
     is_empty (new Nat 1) ≠ none ∧ is_full (new Nat 1) ≠ none ∧
     write (new Nat 1) 3 ≠ none ∧ overwrite (new Nat 1) 3 ≠ none ∧
     (new Nat 1).buffer[(new Nat 1).start_idx]? ≠ none) :=
  capacity_zero_panics_capacity_pos_safe 1 (by omega) (new Nat 1) ⟨[], rfl⟩ 3

end CircularBuffer
